import Mathlib

/-!
Verification of the PDC eligibility-benefit processing script
(src/scripts/script.py) against its natural-language specification.

The script's data are parsed JSON documents.  We embed them as the
inductive type `Json` below; Python dictionaries are association lists in
insertion order, and numbers are modelled as integers (the documents the
script consumes carry no fractional numbers).  Python dictionary
construction (comprehension / repeated assignment) is modelled by
`mkDict` / `insertPy`, which keep the position of the first occurrence of
a key and the last assigned value, as Python does.
-/

set_option autoImplicit false

/-- A parsed JSON value, as produced by Python's json.load. -/
inductive Json where
  | null : Json
  | bool (b : Bool) : Json
  | num (n : Int) : Json
  | str (s : String) : Json
  | arr (elems : List Json) : Json
  | obj (fields : List (String × Json)) : Json

/-- Python character whitespace as used by str.strip() (ASCII range). -/
def isPySpace (c : Char) : Bool :=
  c = ' ' || c = '\t' || c = '\n' || c = '\x0d' || c = '\x0b' || c = '\x0c'

/-- Drop every leading character satisfying the marker test, as Python's
lstrip("@") does on the character list of a string. -/
def lstripAtL : List Char → List Char
  | [] => []
  | c :: cs => if c = '@' then lstripAtL cs else c :: cs

/-- Python `s.lstrip("@")`: remove every leading '@' character. -/
def lstripAt (s : String) : String := ⟨lstripAtL s.data⟩

/-- Python `s[1:]`: drop the first character. -/
def pyDrop1 (s : String) : String := ⟨s.data.drop 1⟩

/-- Helper for `startswith` on character lists. -/
def startswithL : List Char → List Char → Bool
  | [], _ => true
  | _ :: _, [] => false
  | p :: ps, c :: cs => if p = c then startswithL ps cs else false

/-- Python `s.startswith(pre)`. -/
def startswith (s pre : String) : Bool := startswithL pre.data s.data

/-- Drop the leading run of whitespace characters. -/
def dropSpaces : List Char → List Char
  | [] => []
  | c :: cs => if isPySpace c then dropSpaces cs else c :: cs

/-- Python `s.strip()`: drop leading and trailing whitespace. -/
def pyStrip (s : String) : String :=
  ⟨((dropSpaces s.data).reverse |> dropSpaces).reverse⟩

/-- Python `"^" in s` for the composite-value delimiter. -/
def caretIn : List Char → Bool
  | [] => false
  | c :: cs => if c = '^' then true else caretIn cs

/-- Whether the composite-value delimiter occurs in the string. -/
def containsCaret (s : String) : Bool := caretIn s.data

/-- A string free of the composite-value delimiter. -/
def noCaret (s : String) : Bool := !(containsCaret s)

/-- Python `s.split("^")` on character lists: the result is non-empty and
keeps empty parts, exactly as Python's split with an explicit separator. -/
def splitCaretL : List Char → List (List Char)
  | [] => [[]]
  | c :: cs =>
    match splitCaretL cs with
    | [] => [[]]
    | p :: ps => if c = '^' then [] :: p :: ps else (c :: p) :: ps

/-- Python `s.split("^")`. -/
def pySplitCaret (s : String) : List String :=
  (splitCaretL s.data).map (fun l => ⟨l⟩)

/-- Python `", ".join(parts)`. -/
def joinComma : List String → String
  | [] => ""
  | [s] => s
  | s :: rest => s ++ ", " ++ joinComma rest

/-- Membership test on a key list, mirroring Python's `k in dict` over the
keys of an association list. -/
def memB (k : String) : List String → Bool
  | [] => false
  | k0 :: rest => if k0 = k then true else memB k rest

/-- The keys of an association list, in order. -/
def keysOf {α : Type} (l : List (String × α)) : List String := l.map (fun p => p.1)

/-- Whether a key list is duplicate-free. -/
def nodupB : List String → Bool
  | [] => true
  | k :: ks => if memB k ks then false else nodupB ks

/-- Python dictionary lookup `d.get(k)` / `d[k]` on an association list:
the first entry with the given key. -/
def lookupPairs {α : Type} (k : String) : List (String × α) → Option α
  | [] => none
  | (k0, v) :: rest => if k0 = k then some v else lookupPairs k rest

/-- Python dictionary assignment `d[k] = v` on an association list: replace
the value at the first occurrence of `k`, else append the pair. -/
def insertPy {α : Type} (k : String) (v : α) : List (String × α) → List (String × α)
  | [] => [(k, v)]
  | (k0, v0) :: rest => if k0 = k then (k, v) :: rest else (k0, v0) :: insertPy k v rest

/-- Build a Python dictionary from a sequence of key/value pairs (the
semantics of a dict comprehension): first-occurrence position, last value. -/
def mkDict {α : Type} (l : List (String × α)) : List (String × α) :=
  l.foldl (fun acc p => insertPy p.1 p.2 acc) []

mutual
/-- The helper `remove_at_prefix` from the script: recursively remove the '@' marker
from every dictionary key (Python `k.lstrip("@")` removes every leading
'@'), recursing into dictionary values and list elements and returning
scalars unchanged. -/
def remove_at_prefix : Json → Json
  | .null => .null
  | .bool b => .bool b
  | .num n => .num n
  | .str s => .str s
  | .arr xs => .arr (removeAtList xs)
  | .obj fs => .obj (mkDict (removeAtFields fs))

/-- The pairs of the dict comprehension inside `remove_at_prefix`. -/
def removeAtFields : List (String × Json) → List (String × Json)
  | [] => []
  | (k, v) :: rest => (lstripAt k, remove_at_prefix v) :: removeAtFields rest

/-- The list comprehension inside `remove_at_prefix`. -/
def removeAtList : List Json → List Json
  | [] => []
  | x :: rest => remove_at_prefix x :: removeAtList rest
end

/-- The lookup cache built by `load_mapping`: field name to a mapping of
code (always a string key) to description. -/
abbrev MappingTable := List (String × List (String × String))

mutual
/-- Python `repr` of a parsed JSON value, as used by `str` on containers.
Escaping of quote characters inside string contents is not modelled; the
script only stringifies scalar field values. -/
def pyRepr : Json → String
  | .null => "None"
  | .bool true => "True"
  | .bool false => "False"
  | .num n => toString n
  | .str s => "\x27" ++ s ++ "\x27"
  | .arr xs => "[" ++ joinComma (pyReprList xs) ++ "]"
  | .obj fs => "\x7b" ++ joinComma (pyReprFields fs) ++ "\x7d"

/-- The element representations of a list, for `pyRepr`. -/
def pyReprList : List Json → List String
  | [] => []
  | x :: rest => pyRepr x :: pyReprList rest

/-- The entry representations of a dictionary, for `pyRepr`. -/
def pyReprFields : List (String × Json) → List String
  | [] => []
  | (k, v) :: rest => ("\x27" ++ k ++ "\x27: " ++ pyRepr v) :: pyReprFields rest
end

/-- Python `str(value)` on a parsed JSON value. -/
def pyStr : Json → String
  | .str s => s
  | .null => "None"
  | .bool true => "True"
  | .bool false => "False"
  | .num n => toString n
  | v => pyRepr v

/-- Python truthiness of a parsed JSON value, as used by `if not eb_list`. -/
def pyTruthy : Json → Bool
  | .null => false
  | .bool b => b
  | .num n => if n = 0 then false else true
  | .str s => if s.data.isEmpty then false else true
  | .arr xs => if xs.isEmpty then false else true
  | .obj fs => if fs.isEmpty then false else true

/-- The MSG branch of `map_eb_codes`: keep a list as-is, wrap a single
dictionary into a one-element list, keep anything else as-is. -/
def msgValue : Json → Json
  | .arr xs => .arr xs
  | .obj fs => .arr [.obj fs]
  | v => v

/-- The loop body of `map_eb_codes`, processing one field of the EB entry
into the accumulated `mapped_entry` dictionary. -/
def mapField (lookup_cache : MappingTable) (acc : List (String × Json))
    (key : String) (value : Json) : List (String × Json) :=
  if key = "MSG" then
    insertPy key (msgValue value) acc
  else if startswith key "@EB" then
    let eb_field := pyDrop1 key
    let clean_key := lstripAt key
    match lookupPairs eb_field lookup_cache with
    | none => insertPy clean_key value acc
    | some field_mapping =>
      let value_str := pyStrip (pyStr value)
      if containsCaret value_str then
        let codes := pySplitCaret value_str
        let mapped_values :=
          codes.map (fun code => (lookupPairs (pyStrip code) field_mapping).getD (pyStrip code))
        insertPy clean_key (Json.str (joinComma mapped_values)) acc
      else
        insertPy clean_key (Json.str ((lookupPairs value_str field_mapping).getD value_str)) acc
  else
    insertPy key ( remove_at_prefix value) acc

/-- The resolver `map_eb_codes` from the script: resolve the coded fields of one EB
entry against the lookup cache, then remove the '@' marker from all
remaining keys. -/
def map_eb_codes (eb_entry : List (String × Json)) (lookup_cache : MappingTable) : Json :=
  remove_at_prefix (Json.obj (eb_entry.foldl (fun acc p => mapField lookup_cache acc p.1 p.2) []))

/-- The two observed variants of unmapped-code handling named by the spec:
the repository holds two divergent implementations of the resolver, and the
spec requires the choice to be a configuration switch. -/
inductive UnmappedPolicy where
  | strict : UnmappedPolicy
  | lenient : UnmappedPolicy

/-- Modelled from the spec: the loop body of the policy-switchable segment
resolver.  The lenient branches are those of `mapField` (the script under
src/); the strict branches follow the spec's strict unmapped-code policy
(the second script variant of the repository, which is not under src/):
an unmapped field or unmapped single code resolves to null, composite
values drop unmapped parts, and a composite whose parts are all unmapped
resolves to null. -/
def mapFieldPol (pol : UnmappedPolicy) (lookup_cache : MappingTable)
    (acc : List (String × Json)) (key : String) (value : Json) : List (String × Json) :=
  if key = "MSG" then
    insertPy key (msgValue value) acc
  else if startswith key "@EB" then
    let eb_field := pyDrop1 key
    let clean_key := lstripAt key
    match lookupPairs eb_field lookup_cache with
    | none =>
      match pol with
      | .lenient => insertPy clean_key value acc
      | .strict => insertPy clean_key Json.null acc
    | some field_mapping =>
      let value_str := pyStrip (pyStr value)
      if containsCaret value_str then
        let codes := pySplitCaret value_str
        match pol with
        | .lenient =>
          let mapped_values :=
            codes.map (fun code => (lookupPairs (pyStrip code) field_mapping).getD (pyStrip code))
          insertPy clean_key (Json.str (joinComma mapped_values)) acc
        | .strict =>
          match codes.filterMap (fun code => lookupPairs (pyStrip code) field_mapping) with
          | [] => insertPy clean_key Json.null acc
          | d :: ds => insertPy clean_key (Json.str (joinComma (d :: ds))) acc
      else
        match pol with
        | .lenient =>
          insertPy clean_key (Json.str ((lookupPairs value_str field_mapping).getD value_str)) acc
        | .strict =>
          match lookupPairs value_str field_mapping with
          | some d => insertPy clean_key (Json.str d) acc
          | none => insertPy clean_key Json.null acc
  else
    insertPy key ( remove_at_prefix value) acc

/-- Modelled from the spec: the policy-switchable segment resolver.  At
`UnmappedPolicy.lenient` it coincides with `map_eb_codes` from src/. -/
def resolve_eb_codes (pol : UnmappedPolicy) (eb_entry : List (String × Json))
    (lookup_cache : MappingTable) : Json :=
  remove_at_prefix (Json.obj (eb_entry.foldl (fun acc p => mapFieldPol pol lookup_cache acc p.1 p.2) []))

/-- A Python subscript error: KeyError from a missing dictionary key, or
TypeError from subscripting a non-dictionary with a string key. -/
inductive PyErr where
  | keyError : PyErr
  | typeError : PyErr

/-- Python `value[key]` with a string key: a dictionary yields its entry or
raises KeyError; any other value raises TypeError. -/
def subscr : Json → String → Except PyErr Json
  | .obj fs, k =>
    match lookupPairs k fs with
    | some v => .ok v
    | none => .error .keyError
  | _, _ => .error .typeError

/-- A chain of Python subscripts, stopping at the first error. -/
def subscrChain : Json → List String → Except PyErr Json
  | j, [] => .ok j
  | j, k :: ks =>
    match subscr j k with
    | .ok v => subscrChain v ks
    | .error e => .error e

/-- The fixed access chain of `extract_patient_info`. -/
def memberPath : List String := ["ISA", "GS", "ST", "HL", "HL", "HL", "NM1", "@NM109"]

/-- The deeper (HL4) segment-list path of `get_eb_list`. -/
def deepPath : List String := ["ISA", "GS", "ST", "HL", "HL", "HL", "HL", "EB"]

/-- The shallower (HL3) segment-list path of `get_eb_list`. -/
def shallowPath : List String := ["ISA", "GS", "ST", "HL", "HL", "HL", "EB"]

/-- The navigator `extract_patient_info` from the script: walk the fixed member-id chain
inside `try`, catching only KeyError (`Except.ok none`); a TypeError from
subscripting a non-dictionary link propagates (`Except.error ()`). -/
def extract_patient_info (data : Json) : Except Unit (Option Json) :=
  match subscrChain data memberPath with
  | .ok v => .ok (some v)
  | .error .keyError => .ok none
  | .error .typeError => .error ()

/-- The navigator `get_eb_list` from the script: try the deeper HL4 path, catching both
KeyError and TypeError, then fall back to the shallower HL3 path, else
None. -/
def get_eb_list (data : Json) : Option Json :=
  match subscrChain data deepPath with
  | .ok v => some v
  | .error _ =>
    match subscrChain data shallowPath with
    | .ok v => some v
    | .error _ => none

/-- The pure chain walk over dictionaries only: `none` when a link is
missing from a dictionary or a link is not a dictionary. -/
def tryPath : Json → List String → Option Json
  | j, [] => some j
  | j, k :: ks =>
    match j with
    | .obj fs =>
      match lookupPairs k fs with
      | some v => tryPath v ks
      | none => none
    | _ => none

/-- One output record of `process_json_file`.  The processing timestamp is
captured once per document and shared by every record of the batch; it is
passed in explicitly here. -/
structure OutputRecord where
  id : Nat
  member_id : Option Json
  inserted_at : String
  data : Json

/-- The `for idx, eb_entry in enumerate(eb_list, 1)` loop of
`process_json_file`: the index advances on every element, and elements
that are not dictionaries are skipped after the index is taken. -/
def processEntries (lookup_cache : MappingTable) (member_id : Option Json)
    (timestamp : String) : Nat → List Json → List OutputRecord
  | _, [] => []
  | idx, e :: rest =>
    match e with
    | .obj fs =>
      ⟨idx, member_id, timestamp, map_eb_codes fs lookup_cache⟩ ::
        processEntries lookup_cache member_id timestamp (idx + 1) rest
    | _ => processEntries lookup_cache member_id timestamp (idx + 1) rest

/-- The assembler `process_json_file` from the script (its in-memory core, after the
document has been parsed; the timestamp is passed explicitly).  A TypeError
escaping `extract_patient_info` is caught by the surrounding
`except Exception` and yields the empty batch.  A falsy segment list
(absent, empty list, empty dictionary, ...) yields the empty batch before
the dictionary-to-list coercion.  Iterating a non-list, non-dictionary
value either raises TypeError (caught, empty batch) or, for a string,
yields only non-dictionary characters, so it also produces the empty
batch. -/
def process_json_file (data : Json) (lookup_cache : MappingTable)
    (timestamp : String) : List OutputRecord :=
  match extract_patient_info data with
  | .error _ => []
  | .ok member_id =>
    match get_eb_list data with
    | none => []
    | some eb_list =>
      if pyTruthy eb_list then
        match eb_list with
        | .obj fs => processEntries lookup_cache member_id timestamp 1 [Json.obj fs]
        | .arr xs => processEntries lookup_cache member_id timestamp 1 xs
        | _ => []
      else []

/-- Whether a value is a dictionary (a structurally valid segment). -/
def isObjB : Json → Bool
  | .obj _ => true
  | _ => false

/-- The top-level keys of a value (empty for non-dictionaries). -/
def topKeys : Json → List String
  | .obj fs => keysOf fs
  | _ => []

/-- A key's first character is not the '@' marker. -/
def noAtHeadL : List Char → Bool
  | [] => true
  | c :: _ => if c = '@' then false else true

/-- The string does not start with the '@' marker. -/
def noAtHeadS (s : String) : Bool := noAtHeadL s.data

mutual
/-- No key of any dictionary at any depth starts with the '@' marker. -/
def noAtKeys : Json → Bool
  | .obj fs => noAtKeysFields fs
  | .arr xs => noAtKeysList xs
  | _ => true

/-- Conjunct of `noAtKeys` over dictionary entries. -/
def noAtKeysFields : List (String × Json) → Bool
  | [] => true
  | (k, v) :: rest => noAtHeadS k && (noAtKeys v && noAtKeysFields rest)

/-- Conjunct of `noAtKeys` over list elements. -/
def noAtKeysList : List Json → Bool
  | [] => true
  | x :: rest => noAtKeys x && noAtKeysList rest
end

/-- Strip exactly one leading '@' marker from a key if present.  This
follows the claim's words (one marker character stripped), not the code. -/
def stripOneKey (k : String) : String :=
  if noAtHeadS k then k else pyDrop1 k

mutual
/-- The tree transform described by the claim for the Key Normalizer:
a structurally identical tree in which every dictionary key has exactly
one leading '@' stripped if present.  Follows the claim's words. -/
def stripOneTree : Json → Json
  | .obj fs => .obj (stripOneFields fs)
  | .arr xs => .arr (stripOneList xs)
  | .null => .null
  | .bool b => .bool b
  | .num n => .num n
  | .str s => .str s

/-- Conjunct of `stripOneTree` over dictionary entries. -/
def stripOneFields : List (String × Json) → List (String × Json)
  | [] => []
  | (k, v) :: rest => (stripOneKey k, stripOneTree v) :: stripOneFields rest

/-- Conjunct of `stripOneTree` over list elements. -/
def stripOneList : List Json → List Json
  | [] => []
  | x :: rest => stripOneTree x :: stripOneList rest
end

mutual
/-- The tree transform of the amended Key Normalizer claim: a structurally
identical tree in which every dictionary key has all leading '@' markers
stripped.  Follows the amended claim's words (a plain key map with no
dictionary rebuilding). -/
def stripAllTree : Json → Json
  | .obj fs => .obj (stripAllFields fs)
  | .arr xs => .arr (stripAllList xs)
  | .null => .null
  | .bool b => .bool b
  | .num n => .num n
  | .str s => .str s

/-- Conjunct of `stripAllTree` over dictionary entries. -/
def stripAllFields : List (String × Json) → List (String × Json)
  | [] => []
  | (k, v) :: rest => (lstripAt k, stripAllTree v) :: stripAllFields rest

/-- Conjunct of `stripAllTree` over list elements. -/
def stripAllList : List Json → List Json
  | [] => []
  | x :: rest => stripAllTree x :: stripAllList rest
end

mutual
/-- No two keys of any dictionary in the tree collide after stripping the
'@' markers: under this condition the Python dict comprehension of
`remove_at_prefix` never merges entries. -/
def stripSafe : Json → Bool
  | .obj fs => nodupB (fs.map (fun p => lstripAt p.1)) && stripSafeFields fs
  | .arr xs => stripSafeList xs
  | _ => true

/-- Conjunct of `stripSafe` over dictionary values. -/
def stripSafeFields : List (String × Json) → Bool
  | [] => true
  | p :: rest => stripSafe p.2 && stripSafeFields rest

/-- Conjunct of `stripSafe` over list elements. -/
def stripSafeList : List Json → Bool
  | [] => true
  | x :: rest => stripSafe x && stripSafeList rest
end

/-- The record batch described by the amended Record Assembler claim: one
record per dictionary element of the segment list, in source order, whose
sequence id is the 1-based position of the element in the full list. -/
def assembleBatch (lookup_cache : MappingTable) (member_id : Option Json)
    (timestamp : String) (l : List Json) : List OutputRecord :=
  ((List.range' 1 l.length).zip l).filterMap (fun p =>
    match p.2 with
    | .obj fs => some ⟨p.1, member_id, timestamp, map_eb_codes fs lookup_cache⟩
    | _ => none)

/-- A document whose deep (HL4) segment list holds two dictionaries with a
non-dictionary element between them. -/
def gapDoc : Json :=
  Json.obj [("ISA", Json.obj [("GS", Json.obj [("ST", Json.obj [("HL", Json.obj [("HL",
    Json.obj [("HL", Json.obj [("HL", Json.obj [("EB",
      Json.arr [Json.obj [("@EB01", Json.str "Y")],
                Json.str "skip",
                Json.obj [("@EB02", Json.str "Z")]])])])])])])])])]

/-- A document whose segment list resolves to an empty dictionary. -/
def emptyObjDoc : Json :=
  Json.obj [("ISA", Json.obj [("GS", Json.obj [("ST", Json.obj [("HL", Json.obj [("HL",
    Json.obj [("HL", Json.obj [("EB", Json.obj [])])])])])])])]

/-- A document whose segment list resolves to a single non-empty
dictionary (not a list). -/
def singleObjDoc : Json :=
  Json.obj [("ISA", Json.obj [("GS", Json.obj [("ST", Json.obj [("HL", Json.obj [("HL",
    Json.obj [("HL", Json.obj [("EB", Json.obj [("@EB01", Json.str "Y")])])])])])])])]

/-- A document carrying a member id and a shallow (HL3) segment list. -/
def fullDoc : Json :=
  Json.obj [("ISA", Json.obj [("GS", Json.obj [("ST", Json.obj [("HL", Json.obj [("HL",
    Json.obj [("HL", Json.obj [("NM1", Json.obj [("@NM109", Json.str "MID123")]),
                               ("EB", Json.arr [Json.obj [("@EB01", Json.str "Y")]])])])])])])])]

/-- A dictionary key carrying two leading markers, on which stripping one
marker and stripping the whole leading run differ, and whose stripped key
collides with a sibling key. -/
def doubleAtDoc : Json :=
  Json.obj [("@@a", Json.null), ("a", Json.bool true)]

/-- The mapping table of the spec's scenario. -/
def scenarioTable : MappingTable :=
  [("EB03", [("1", "Active"), ("86", "Co-Payment")])]

/-! ## Basic lemmas about the string helpers -/

theorem strData_ext {s t : String} (h : s.data = t.data) : s = t := by
  cases s
  cases t
  exact congrArg String.mk h

theorem noAtHeadL_lstripAtL (l : List Char) : noAtHeadL (lstripAtL l) = true := by
  induction l with
  | nil => rfl
  | cons c cs ih =>
    by_cases h : c = '@'
    · simp [lstripAtL, h, ih]
    · simp [lstripAtL, h, noAtHeadL]

theorem lstripAtL_of_noAtHead {l : List Char} (h : noAtHeadL l = true) : lstripAtL l = l := by
  cases l with
  | nil => rfl
  | cons c cs =>
    by_cases hc : c = '@'
    · simp [noAtHeadL, hc] at h
    · simp [lstripAtL, hc]

theorem lstripAtL_idem (l : List Char) : lstripAtL (lstripAtL l) = lstripAtL l :=
  lstripAtL_of_noAtHead (noAtHeadL_lstripAtL l)

theorem lstripAt_idem (s : String) : lstripAt (lstripAt s) = lstripAt s := by
  apply strData_ext
  simpa [lstripAt] using lstripAtL_idem s.data

theorem noAtHeadS_lstripAt (s : String) : noAtHeadS (lstripAt s) = true := by
  simpa [noAtHeadS, lstripAt] using noAtHeadL_lstripAtL s.data

theorem lstripAt_of_noAtHeadS {s : String} (h : noAtHeadS s = true) : lstripAt s = s := by
  apply strData_ext
  simpa [lstripAt] using lstripAtL_of_noAtHead h

/-! ## Lemmas about Python dictionary building -/

theorem keysOf_nil {α : Type} : keysOf ([] : List (String × α)) = [] := rfl

theorem keysOf_cons {α : Type} (p : String × α) (l : List (String × α)) :
    keysOf (p :: l) = p.1 :: keysOf l := rfl

theorem keysOf_append {α : Type} (l₁ l₂ : List (String × α)) :
    keysOf (l₁ ++ l₂) = keysOf l₁ ++ keysOf l₂ := by
  simp [keysOf]

theorem memB_append (k : String) (l₁ l₂ : List String) :
    memB k (l₁ ++ l₂) = (memB k l₁ || memB k l₂) := by
  induction l₁ with
  | nil => simp [memB]
  | cons a l ih =>
    by_cases h : a = k <;> simp [memB, h, ih]

theorem mem_insertPy {α : Type} {p : String × α} {k : String} {v : α}
    {acc : List (String × α)} (h : p ∈ insertPy k v acc) : p = (k, v) ∨ p ∈ acc := by
  induction acc with
  | nil => simpa [insertPy] using h
  | cons q rest ih =>
    obtain ⟨k0, v0⟩ := q
    by_cases hk : k0 = k
    · rw [insertPy, if_pos hk] at h
      rcases List.mem_cons.mp h with h | h
      · exact Or.inl h
      · exact Or.inr (List.mem_cons_of_mem _ h)
    · rw [insertPy, if_neg hk] at h
      rcases List.mem_cons.mp h with h | h
      · exact Or.inr (by simp [h])
      · rcases ih h with h' | h'
        · exact Or.inl h'
        · exact Or.inr (List.mem_cons_of_mem _ h')

theorem mem_foldl_insertPy {α : Type} :
    ∀ (l : List (String × α)) (acc : List (String × α)) (p : String × α),
      p ∈ l.foldl (fun a q => insertPy q.1 q.2 a) acc → p ∈ acc ∨ p ∈ l := by
  intro l
  induction l with
  | nil => intro acc p h; exact Or.inl h
  | cons q rest ih =>
    intro acc p h
    rcases ih (insertPy q.1 q.2 acc) p h with h' | h'
    · rcases mem_insertPy h' with h'' | h''
      · right
        simp [h'']
      · exact Or.inl h''
    · right
      exact List.mem_cons_of_mem _ h'

theorem mem_mkDict {α : Type} {l : List (String × α)} {p : String × α}
    (h : p ∈ mkDict l) : p ∈ l := by
  rcases mem_foldl_insertPy l [] p h with h' | h'
  · simp at h'
  · exact h'

theorem keysOf_insertPy_mem {α : Type} {k : String} (v : α) {acc : List (String × α)}
    (h : memB k (keysOf acc) = true) : keysOf (insertPy k v acc) = keysOf acc := by
  induction acc with
  | nil => simp [keysOf, memB] at h
  | cons q rest ih =>
    obtain ⟨k0, v0⟩ := q
    by_cases hk : k0 = k
    · simp [insertPy, hk, keysOf]
    · simp only [keysOf_cons, memB, hk, if_neg, not_false_iff] at h
      simp [insertPy, hk, keysOf_cons, ih h]

theorem keysOf_insertPy_notmem {α : Type} {k : String} (v : α) {acc : List (String × α)}
    (h : memB k (keysOf acc) = false) : keysOf (insertPy k v acc) = keysOf acc ++ [k] := by
  induction acc with
  | nil => simp [insertPy, keysOf]
  | cons q rest ih =>
    obtain ⟨k0, v0⟩ := q
    by_cases hk : k0 = k
    · simp [keysOf_cons, memB, hk] at h
    · simp only [keysOf_cons, memB, hk, if_neg, not_false_iff] at h
      simp [insertPy, hk, keysOf_cons, ih h]

theorem insertPy_notmem {α : Type} {k : String} (v : α) {acc : List (String × α)}
    (h : memB k (keysOf acc) = false) : insertPy k v acc = acc ++ [(k, v)] := by
  induction acc with
  | nil => simp [insertPy]
  | cons q rest ih =>
    obtain ⟨k0, v0⟩ := q
    by_cases hk : k0 = k
    · simp [keysOf_cons, memB, hk] at h
    · simp only [keysOf_cons, memB, hk, if_neg, not_false_iff] at h
      simp [insertPy, hk, ih h]

theorem nodupB_snoc {x : List String} {k : String} (h₁ : nodupB x = true)
    (h₂ : memB k x = false) : nodupB (x ++ [k]) = true := by
  induction x with
  | nil => simp [nodupB, memB]
  | cons a x ih =>
    rw [memB] at h₂
    by_cases hak : a = k
    · rw [if_pos hak] at h₂
      exact absurd h₂ (by simp)
    · rw [if_neg hak] at h₂
      rw [nodupB] at h₁
      cases hax : memB a x with
      | true => rw [hax] at h₁; simp at h₁
      | false =>
        rw [hax] at h₁
        simp at h₁
        have hka : ¬k = a := fun hh => hak hh.symm
        have hmem : memB a (x ++ [k]) = false := by
          rw [memB_append, hax, memB, if_neg hka]
          rfl
        rw [List.cons_append, nodupB, hmem, if_neg]
        · exact ih h₁ h₂
        · simp

theorem nodupB_insertPy {α : Type} {k : String} (v : α) {acc : List (String × α)}
    (h : nodupB (keysOf acc) = true) : nodupB (keysOf (insertPy k v acc)) = true := by
  by_cases hm : memB k (keysOf acc) = true
  · rw [keysOf_insertPy_mem v hm]
    exact h
  · simp only [Bool.not_eq_true] at hm
    rw [keysOf_insertPy_notmem v hm]
    exact nodupB_snoc h hm

theorem nodupB_keysOf_foldl {α : Type} :
    ∀ (l : List (String × α)) (acc : List (String × α)),
      nodupB (keysOf acc) = true →
      nodupB (keysOf (l.foldl (fun a q => insertPy q.1 q.2 a) acc)) = true := by
  intro l
  induction l with
  | nil => intro acc h; exact h
  | cons q rest ih => intro acc h; exact ih _ (nodupB_insertPy q.2 h)

theorem nodupB_keysOf_mkDict {α : Type} (l : List (String × α)) :
    nodupB (keysOf (mkDict l)) = true :=
  nodupB_keysOf_foldl l [] rfl

theorem nodupB_mid {k : String} :
    ∀ {x y : List String}, nodupB (x ++ k :: y) = true → memB k x = false := by
  intro x
  induction x with
  | nil => intro y _; rfl
  | cons a x ih =>
    intro y h
    rw [List.cons_append, nodupB] at h
    cases hm : memB a (x ++ k :: y) with
    | true => rw [hm] at h; simp at h
    | false =>
      rw [hm] at h
      simp at h
      rw [memB_append] at hm
      simp only [Bool.or_eq_false_iff] at hm
      have hak : ¬a = k := by
        intro hak
        subst hak
        have := hm.2
        rw [memB, if_pos rfl] at this
        simp at this
      rw [memB, if_neg hak]
      exact ih h

theorem foldl_insertPy_append {α : Type} :
    ∀ (l : List (String × α)) (acc : List (String × α)),
      nodupB (keysOf acc ++ keysOf l) = true →
      l.foldl (fun a q => insertPy q.1 q.2 a) acc = acc ++ l := by
  intro l
  induction l with
  | nil => intro acc _; simp
  | cons q rest ih =>
    intro acc h
    obtain ⟨k, v⟩ := q
    simp only [keysOf_cons] at h
    have hmem : memB k (keysOf acc) = false := nodupB_mid h
    have hins : insertPy k v acc = acc ++ [(k, v)] := insertPy_notmem v hmem
    simp only [List.foldl_cons, hins]
    have h' : nodupB (keysOf (acc ++ [(k, v)]) ++ keysOf rest) = true := by
      rw [keysOf_append]
      simpa [keysOf, List.append_assoc] using h
    rw [ih _ h', List.append_assoc]
    simp

theorem mkDict_self {α : Type} {l : List (String × α)} (h : nodupB (keysOf l) = true) :
    mkDict l = l := by
  have := foldl_insertPy_append l [] (by simpa [keysOf] using h)
  simpa [mkDict] using this

/-! ## Structural lemmas about the Key Normalizer -/

theorem sizeOf_val_lt_obj {fs : List (String × Json)} {k : String} {v : Json}
    (h : (k, v) ∈ fs) : sizeOf v < sizeOf (Json.obj fs) := by
  have h1 := List.sizeOf_lt_of_mem h
  simp only [Prod.mk.sizeOf_spec] at h1
  simp only [Json.obj.sizeOf_spec]
  omega

theorem sizeOf_elem_lt_arr {xs : List Json} {x : Json} (h : x ∈ xs) :
    sizeOf x < sizeOf (Json.arr xs) := by
  have h1 := List.sizeOf_lt_of_mem h
  simp only [Json.arr.sizeOf_spec]
  omega

theorem mem_removeAtFields {fs : List (String × Json)} {p : String × Json}
    (h : p ∈ removeAtFields fs) :
    ∃ k v, (k, v) ∈ fs ∧ p = (lstripAt k, remove_at_prefix v) := by
  induction fs with
  | nil => simp [removeAtFields] at h
  | cons q rest ih =>
    obtain ⟨k, v⟩ := q
    rw [removeAtFields] at h
    rcases List.mem_cons.mp h with h | h
    · exact ⟨k, v, by simp, h⟩
    · obtain ⟨k0, v0, hm, hp⟩ := ih h
      exact ⟨k0, v0, List.mem_cons_of_mem _ hm, hp⟩

theorem mem_removeAtList {xs : List Json} {x : Json} (h : x ∈ removeAtList xs) :
    ∃ y, y ∈ xs ∧ x = remove_at_prefix y := by
  induction xs with
  | nil => simp [removeAtList] at h
  | cons y rest ih =>
    rw [removeAtList] at h
    rcases List.mem_cons.mp h with h | h
    · exact ⟨y, by simp, h⟩
    · obtain ⟨y0, hm, hx⟩ := ih h
      exact ⟨y0, List.mem_cons_of_mem _ hm, hx⟩

theorem removeAtFields_fix {L : List (String × Json)}
    (h : ∀ k v, (k, v) ∈ L → lstripAt k = k ∧ remove_at_prefix v = v) :
    removeAtFields L = L := by
  induction L with
  | nil => rfl
  | cons p rest ih =>
    obtain ⟨k, v⟩ := p
    obtain ⟨hk, hv⟩ := h k v (by simp)
    rw [removeAtFields, hk, hv, ih (fun k0 v0 hm => h k0 v0 (List.mem_cons_of_mem _ hm))]

theorem removeAtList_fix {L : List Json}
    (h : ∀ x, x ∈ L → remove_at_prefix x = x) : removeAtList L = L := by
  induction L with
  | nil => rfl
  | cons x rest ih =>
    rw [removeAtList, h x (by simp), ih (fun y hm => h y (List.mem_cons_of_mem _ hm))]

theorem keysOf_removeAtFields (fs : List (String × Json)) :
    keysOf (removeAtFields fs) = fs.map (fun p => lstripAt p.1) := by
  induction fs with
  | nil => rfl
  | cons p rest ih =>
    obtain ⟨k, v⟩ := p
    rw [removeAtFields, keysOf_cons, ih, List.map_cons]

theorem remove_idem_aux : ∀ (n : Nat) (t : Json), sizeOf t ≤ n →
    remove_at_prefix ( remove_at_prefix t) = remove_at_prefix t := by
  intro n
  induction n with
  | zero =>
    intro t h
    exact absurd h (by cases t <;> simp)
  | succ n ih =>
    intro t ht
    cases t with
    | null => simp only [ remove_at_prefix]
    | bool b => simp only [ remove_at_prefix]
    | num m => simp only [ remove_at_prefix]
    | str s => simp only [ remove_at_prefix]
    | arr xs =>
      have hfix : removeAtList (removeAtList xs) = removeAtList xs := by
        apply removeAtList_fix
        intro x hm
        obtain ⟨y, hy, hx⟩ := mem_removeAtList hm
        rw [hx]
        refine ih y ?_
        have := sizeOf_elem_lt_arr hy
        omega
      simp only [ remove_at_prefix, hfix]
    | obj fs =>
      have hfix : removeAtFields (mkDict (removeAtFields fs)) = mkDict (removeAtFields fs) := by
        apply removeAtFields_fix
        intro k v hm
        obtain ⟨k0, v0, hm0, hp⟩ := mem_removeAtFields (mem_mkDict hm)
        have hk : k = lstripAt k0 := congrArg Prod.fst hp
        have hv : v = remove_at_prefix v0 := congrArg Prod.snd hp
        constructor
        · rw [hk, lstripAt_idem]
        · rw [hv]
          refine ih v0 ?_
          have := sizeOf_val_lt_obj hm0
          omega
      have hnd := nodupB_keysOf_mkDict (removeAtFields fs)
      simp only [ remove_at_prefix, hfix, mkDict_self hnd]

theorem noAtKeysFields_of_forall {L : List (String × Json)}
    (h : ∀ k v, (k, v) ∈ L → noAtHeadS k = true ∧ noAtKeys v = true) :
    noAtKeysFields L = true := by
  induction L with
  | nil => rfl
  | cons p rest ih =>
    obtain ⟨k, v⟩ := p
    obtain ⟨hk, hv⟩ := h k v (by simp)
    rw [noAtKeysFields, hk, hv, ih (fun k0 v0 hm => h k0 v0 (List.mem_cons_of_mem _ hm))]
    rfl

theorem noAtKeysList_of_forall {L : List Json}
    (h : ∀ x, x ∈ L → noAtKeys x = true) : noAtKeysList L = true := by
  induction L with
  | nil => rfl
  | cons x rest ih =>
    rw [noAtKeysList, h x (by simp), ih (fun y hm => h y (List.mem_cons_of_mem _ hm))]
    rfl

theorem remove_noAtKeys_aux : ∀ (n : Nat) (t : Json), sizeOf t ≤ n →
    noAtKeys ( remove_at_prefix t) = true := by
  intro n
  induction n with
  | zero =>
    intro t h
    exact absurd h (by cases t <;> simp)
  | succ n ih =>
    intro t ht
    cases t with
    | null => simp [ remove_at_prefix, noAtKeys]
    | bool b => simp [ remove_at_prefix, noAtKeys]
    | num m => simp [ remove_at_prefix, noAtKeys]
    | str s => simp [ remove_at_prefix, noAtKeys]
    | arr xs =>
      simp only [ remove_at_prefix, noAtKeys]
      apply noAtKeysList_of_forall
      intro x hm
      obtain ⟨y, hy, hx⟩ := mem_removeAtList hm
      rw [hx]
      refine ih y ?_
      have := sizeOf_elem_lt_arr hy
      omega
    | obj fs =>
      simp only [ remove_at_prefix, noAtKeys]
      apply noAtKeysFields_of_forall
      intro k v hm
      obtain ⟨k0, v0, hm0, hp⟩ := mem_removeAtFields (mem_mkDict hm)
      have hk : k = lstripAt k0 := congrArg Prod.fst hp
      have hv : v = remove_at_prefix v0 := congrArg Prod.snd hp
      constructor
      · rw [hk]
        exact noAtHeadS_lstripAt k0
      · rw [hv]
        refine ih v0 ?_
        have := sizeOf_val_lt_obj hm0
        omega

theorem stripSafeFields_mem {L : List (String × Json)} (h : stripSafeFields L = true) :
    ∀ k v, (k, v) ∈ L → stripSafe v = true := by
  induction L with
  | nil => intro k v hm; simp at hm
  | cons p rest ih =>
    intro k v hm
    rw [stripSafeFields, Bool.and_eq_true] at h
    rcases List.mem_cons.mp hm with hm | hm
    · rw [← show ((k, v) : String × Json).2 = v from rfl, hm]
      exact h.1
    · exact ih h.2 k v hm

theorem stripSafeList_mem {L : List Json} (h : stripSafeList L = true) :
    ∀ x, x ∈ L → stripSafe x = true := by
  induction L with
  | nil => intro x hm; simp at hm
  | cons y rest ih =>
    intro x hm
    rw [stripSafeList, Bool.and_eq_true] at h
    rcases List.mem_cons.mp hm with hm | hm
    · rw [hm]
      exact h.1
    · exact ih h.2 x hm

theorem removeAtFields_eq_stripAll {L : List (String × Json)}
    (h : ∀ k v, (k, v) ∈ L → remove_at_prefix v = stripAllTree v) :
    removeAtFields L = stripAllFields L := by
  induction L with
  | nil => rfl
  | cons p rest ih =>
    obtain ⟨k, v⟩ := p
    rw [removeAtFields, stripAllFields, h k v (by simp),
      ih (fun k0 v0 hm => h k0 v0 (List.mem_cons_of_mem _ hm))]

theorem removeAtList_eq_stripAll {L : List Json}
    (h : ∀ x, x ∈ L → remove_at_prefix x = stripAllTree x) :
    removeAtList L = stripAllList L := by
  induction L with
  | nil => rfl
  | cons x rest ih =>
    rw [removeAtList, stripAllList, h x (by simp),
      ih (fun y hm => h y (List.mem_cons_of_mem _ hm))]

theorem remove_stripAll_aux : ∀ (n : Nat) (t : Json), sizeOf t ≤ n →
    stripSafe t = true → remove_at_prefix t = stripAllTree t := by
  intro n
  induction n with
  | zero =>
    intro t h _
    exact absurd h (by cases t <;> simp)
  | succ n ih =>
    intro t ht hsafe
    cases t with
    | null => simp [ remove_at_prefix, stripAllTree]
    | bool b => simp [ remove_at_prefix, stripAllTree]
    | num m => simp [ remove_at_prefix, stripAllTree]
    | str s => simp [ remove_at_prefix, stripAllTree]
    | arr xs =>
      rw [stripSafe] at hsafe
      simp only [ remove_at_prefix, stripAllTree]
      rw [removeAtList_eq_stripAll]
      intro x hm
      refine ih x ?_ (stripSafeList_mem hsafe x hm)
      have := sizeOf_elem_lt_arr hm
      omega
    | obj fs =>
      rw [stripSafe, Bool.and_eq_true] at hsafe
      have hfields : removeAtFields fs = stripAllFields fs := by
        apply removeAtFields_eq_stripAll
        intro k v hm
        refine ih v ?_ (stripSafeFields_mem hsafe.2 k v hm)
        have := sizeOf_val_lt_obj hm
        omega
      have hnd : nodupB (keysOf (removeAtFields fs)) = true := by
        rw [keysOf_removeAtFields]
        exact hsafe.1
      simp only [ remove_at_prefix, stripAllTree]
      rw [mkDict_self hnd, hfields]



/-! ## Lemmas about the Document Navigator -/

theorem subscrChain_ok_iff : ∀ (ks : List String) (j v : Json),
    subscrChain j ks = Except.ok v ↔ tryPath j ks = some v := by
  intro ks
  induction ks with
  | nil =>
    intro j v
    simp [subscrChain, tryPath]
  | cons k ks ih =>
    intro j v
    cases j with
    | obj fs =>
      simp only [subscrChain, subscr, tryPath]
      cases hl : lookupPairs k fs with
      | some w => exact ih w v
      | none => simp
    | null => simp [subscrChain, subscr, tryPath]
    | bool b => simp [subscrChain, subscr, tryPath]
    | num m => simp [subscrChain, subscr, tryPath]
    | str s => simp [subscrChain, subscr, tryPath]
    | arr xs => simp [subscrChain, subscr, tryPath]

theorem subscrChain_error_of_none {ks : List String} {j : Json} (h : tryPath j ks = none) :
    ∃ e, subscrChain j ks = Except.error e := by
  cases hc : subscrChain j ks with
  | ok v =>
    have := (subscrChain_ok_iff ks j v).mp hc
    rw [h] at this
    exact absurd this (by simp)
  | error e => exact ⟨e, rfl⟩

theorem subscrChain_append : ∀ (l₁ l₂ : List String) (j : Json),
    subscrChain j (l₁ ++ l₂) =
      match subscrChain j l₁ with
      | .ok v => subscrChain v l₂
      | .error e => .error e := by
  intro l₁
  induction l₁ with
  | nil => intro l₂ j; simp [subscrChain]
  | cons k l₁ ih =>
    intro l₂ j
    cases hs : subscr j k with
    | ok w => simp [subscrChain, hs, ih]
    | error e => simp [subscrChain, hs]

theorem subscrChain_keyError {ks₁ : List String} {k : String} {ks₂ : List String} {j : Json}
    {fs : List (String × Json)} (h₁ : tryPath j ks₁ = some (Json.obj fs))
    (h₂ : lookupPairs k fs = none) :
    subscrChain j (ks₁ ++ k :: ks₂) = Except.error PyErr.keyError := by
  rw [subscrChain_append]
  rw [(subscrChain_ok_iff ks₁ j (Json.obj fs)).mpr h₁]
  simp [subscrChain, subscr, h₂]

/-! ## Lemmas about the Record Assembler loop -/

theorem processEntries_eq : ∀ (l : List Json) (idx : Nat) (cache : MappingTable)
    (mid : Option Json) (ts : String),
    processEntries cache mid ts idx l =
      ((List.range' idx l.length).zip l).filterMap (fun p =>
        match p.2 with
        | .obj fs => some ⟨p.1, mid, ts, map_eb_codes fs cache⟩
        | _ => none) := by
  intro l
  induction l with
  | nil => intro idx cache mid ts; rfl
  | cons e rest ih =>
    intro idx cache mid ts
    rw [List.length_cons, List.range'_succ, List.zip_cons_cons, List.filterMap_cons]
    cases e with
    | obj fs => simp [processEntries, ih]
    | null => simp [processEntries, ih]
    | bool b => simp [processEntries, ih]
    | num m => simp [processEntries, ih]
    | str s => simp [processEntries, ih]
    | arr xs => simp [processEntries, ih]

theorem processEntries_length : ∀ (l : List Json) (idx : Nat) (cache : MappingTable)
    (mid : Option Json) (ts : String),
    (processEntries cache mid ts idx l).length = l.countP isObjB := by
  intro l
  induction l with
  | nil => intro idx cache mid ts; rfl
  | cons e rest ih =>
    intro idx cache mid ts
    cases e with
    | obj fs => simp [processEntries, List.countP_cons, isObjB, ih]
    | null => simp [processEntries, List.countP_cons, isObjB, ih]
    | bool b => simp [processEntries, List.countP_cons, isObjB, ih]
    | num m => simp [processEntries, List.countP_cons, isObjB, ih]
    | str s => simp [processEntries, List.countP_cons, isObjB, ih]
    | arr xs => simp [processEntries, List.countP_cons, isObjB, ih]

/-! ## String lemmas for coded fields -/

theorem startswithL_atEB : ∀ {l : List Char}, startswithL ['@', 'E', 'B'] l = true →
    ∃ r, l = '@' :: 'E' :: 'B' :: r := by
  intro l h
  cases l with
  | nil => simp [startswithL] at h
  | cons c1 l1 =>
    rw [startswithL] at h
    by_cases h1 : '@' = c1
    · rw [if_pos h1] at h
      cases l1 with
      | nil => simp [startswithL] at h
      | cons c2 l2 =>
        rw [startswithL] at h
        by_cases h2 : 'E' = c2
        · rw [if_pos h2] at h
          cases l2 with
          | nil => simp [startswithL] at h
          | cons c3 l3 =>
            rw [startswithL] at h
            by_cases h3 : 'B' = c3
            · exact ⟨l3, by rw [h1, h2, h3]⟩
            · rw [if_neg h3] at h
              exact absurd h (by simp)
        · rw [if_neg h2] at h
          exact absurd h (by simp)
    · rw [if_neg h1] at h
      exact absurd h (by simp)

theorem startswith_atEB {key : String} (h : startswith key "@EB" = true) :
    ∃ r, key.data = '@' :: 'E' :: 'B' :: r := by
  rw [startswith] at h
  have hd : ("@EB" : String).data = ['@', 'E', 'B'] := rfl
  rw [hd] at h
  exact startswithL_atEB h

theorem atEB_ne_MSG {key : String} {r : List Char} (h : key.data = '@' :: 'E' :: 'B' :: r) :
    ¬key = "MSG" := by
  intro he
  rw [he] at h
  have hd : ("MSG" : String).data = ['M', 'S', 'G'] := rfl
  rw [hd] at h
  injection h with h1 _
  exact absurd h1 (by decide)

theorem lstripAt_atEB {key : String} {r : List Char} (h : key.data = '@' :: 'E' :: 'B' :: r) :
    (lstripAt key).data = 'E' :: 'B' :: r := by
  rw [lstripAt, h]
  simp [lstripAtL]

theorem dropSpaces_length : ∀ l : List Char, (dropSpaces l).length ≤ l.length := by
  intro l
  induction l with
  | nil => simp [dropSpaces]
  | cons c cs ih =>
    rw [dropSpaces]
    by_cases h : isPySpace c = true
    · rw [if_pos h]
      exact Nat.le_succ_of_le ih
    · rw [if_neg h]

theorem dropSpaces_eq_of_length : ∀ {l : List Char},
    (dropSpaces l).length = l.length → dropSpaces l = l := by
  intro l h
  cases l with
  | nil => rfl
  | cons c cs =>
    rw [dropSpaces] at h ⊢
    by_cases hc : isPySpace c = true
    · rw [if_pos hc] at h
      have := dropSpaces_length cs
      rw [List.length_cons] at h
      omega
    · rw [if_neg hc]

theorem dropSpaces_head_not {c : Char} {cs : List Char}
    (h : dropSpaces (c :: cs) = c :: cs) : isPySpace c = false := by
  by_cases hc : isPySpace c = true
  · rw [dropSpaces, if_pos hc] at h
    have h1 := congrArg List.length h
    have h2 := dropSpaces_length cs
    rw [List.length_cons] at h1
    omega
  · simpa using hc

theorem pyStrip_fix_parts {s : String} (h : pyStrip s = s) :
    dropSpaces s.data = s.data ∧ dropSpaces s.data.reverse = s.data.reverse := by
  have hd : (dropSpaces ((dropSpaces s.data).reverse)).reverse = s.data := congrArg String.data h
  have hlen : (dropSpaces ((dropSpaces s.data).reverse)).length = s.data.length := by
    have := congrArg List.length hd
    simpa using this
  have h1 : (dropSpaces s.data).length = s.data.length := by
    have ha := dropSpaces_length ((dropSpaces s.data).reverse)
    have hb := dropSpaces_length s.data
    simp only [List.length_reverse] at ha
    omega
  have hfront : dropSpaces s.data = s.data := dropSpaces_eq_of_length h1
  refine ⟨hfront, ?_⟩
  rw [hfront] at hd hlen
  apply dropSpaces_eq_of_length
  simpa using hlen

theorem dropSpaces_concat_caret {A B : List Char} (hA : dropSpaces A = A) :
    dropSpaces (A ++ '^' :: B) = A ++ '^' :: B := by
  cases A with
  | nil =>
    rw [List.nil_append, dropSpaces, if_neg (by decide)]
  | cons c cs =>
    have hc := dropSpaces_head_not hA
    rw [List.cons_append, dropSpaces, if_neg (by simp [hc])]

theorem pyStrip_concat_caret {vs A B : String} (hdata : vs.data = A.data ++ '^' :: B.data)
    (hA : pyStrip A = A) (hB : pyStrip B = B) : pyStrip vs = vs := by
  obtain ⟨hAf, _⟩ := pyStrip_fix_parts hA
  obtain ⟨_, hBr⟩ := pyStrip_fix_parts hB
  apply strData_ext
  show (dropSpaces ((dropSpaces vs.data).reverse)).reverse = vs.data
  rw [hdata, dropSpaces_concat_caret hAf]
  have hrev : (A.data ++ '^' :: B.data).reverse = B.data.reverse ++ '^' :: A.data.reverse := by
    rw [List.reverse_append, List.reverse_cons, List.append_assoc, List.singleton_append]
  rw [hrev, dropSpaces_concat_caret hBr, ← hrev, List.reverse_reverse]

theorem caretIn_concat (A B : List Char) : caretIn (A ++ '^' :: B) = true := by
  induction A with
  | nil => simp [caretIn]
  | cons c cs ih =>
    rw [List.cons_append, caretIn]
    by_cases h : c = '^' <;> simp [h, ih]

theorem containsCaret_concat {vs A B : String} (hdata : vs.data = A.data ++ '^' :: B.data) :
    containsCaret vs = true := by
  rw [containsCaret, hdata]
  exact caretIn_concat A.data B.data

theorem splitCaretL_ne_nil : ∀ l : List Char, splitCaretL l ≠ [] := by
  intro l
  cases l with
  | nil => simp [splitCaretL]
  | cons c cs =>
    rw [splitCaretL]
    cases splitCaretL cs with
    | nil => simp
    | cons p ps => by_cases h : c = '^' <;> simp [h]

theorem splitCaretL_no_caret {l : List Char} (h : caretIn l = false) : splitCaretL l = [l] := by
  induction l with
  | nil => rfl
  | cons c cs ih =>
    rw [caretIn] at h
    by_cases hc : c = '^'
    · rw [if_pos hc] at h
      simp at h
    · rw [if_neg hc] at h
      rw [splitCaretL, ih h]
      simp [hc]

theorem splitCaretL_concat {A B : List Char} (hA : caretIn A = false) :
    splitCaretL (A ++ '^' :: B) = A :: splitCaretL B := by
  induction A with
  | nil =>
    rw [List.nil_append, splitCaretL]
    cases hs : splitCaretL B with
    | nil => exact absurd hs (splitCaretL_ne_nil B)
    | cons p ps => simp
  | cons c cs ih =>
    rw [caretIn] at hA
    by_cases hc : c = '^'
    · rw [if_pos hc] at hA
      simp at hA
    · rw [if_neg hc] at hA
      rw [List.cons_append, splitCaretL, ih hA]
      simp [hc]

theorem noCaret_caretIn {s : String} (h : noCaret s = true) : caretIn s.data = false := by
  rw [noCaret, containsCaret] at h
  simpa using h

theorem pySplitCaret_concat {vs A B : String} (hdata : vs.data = A.data ++ '^' :: B.data)
    (hA : noCaret A = true) (hB : noCaret B = true) :
    pySplitCaret vs = [A, B] := by
  rw [pySplitCaret, hdata, splitCaretL_concat (noCaret_caretIn hA),
    splitCaretL_no_caret (noCaret_caretIn hB)]
  rfl

/-! ## Evaluation of the Segment Resolver on coded fields -/

theorem remove_singleton (k : String) (v : Json) :
    remove_at_prefix (Json.obj [(k, v)]) =
      Json.obj [(lstripAt k, remove_at_prefix v)] := by
  simp only [ remove_at_prefix, removeAtFields]
  rfl

theorem remove_str (s : String) : remove_at_prefix (Json.str s) = Json.str s := rfl

theorem mapField_composite_eval {key vs A B : String} {r : List Char}
    (hd : key.data = '@' :: 'E' :: 'B' :: r) (hstart : startswith key "@EB" = true)
    {lookup_cache : MappingTable} {m : List (String × String)}
    (hm : lookupPairs (pyDrop1 key) lookup_cache = some m)
    (hdata : vs.data = A.data ++ '^' :: B.data)
    (hA : noCaret A = true) (hB : noCaret B = true)
    (hsA : pyStrip A = A) (hsB : pyStrip B = B) :
    mapField lookup_cache [] key (Json.str vs) =
      [(lstripAt key,
        Json.str ((lookupPairs A m).getD A ++ ", " ++ (lookupPairs B m).getD B))] := by
  have hv : pyStrip (pyStr (Json.str vs)) = vs := pyStrip_concat_caret hdata hsA hsB
  simp only [mapField]
  rw [if_neg (atEB_ne_MSG hd), if_pos hstart, hm]
  simp only [hv, containsCaret_concat hdata, pySplitCaret_concat hdata hA hB,
    List.map_cons, List.map_nil, hsA, hsB, if_pos, eq_self_iff_true, if_true]
  rfl

theorem mapFieldPol_strict_composite_eval {key vs A B : String} {r : List Char}
    (hd : key.data = '@' :: 'E' :: 'B' :: r) (hstart : startswith key "@EB" = true)
    {lookup_cache : MappingTable} {m : List (String × String)}
    (hm : lookupPairs (pyDrop1 key) lookup_cache = some m)
    (hdata : vs.data = A.data ++ '^' :: B.data)
    (hA : noCaret A = true) (hB : noCaret B = true)
    (hsA : pyStrip A = A) (hsB : pyStrip B = B) :
    mapFieldPol UnmappedPolicy.strict lookup_cache [] key (Json.str vs) =
      [(lstripAt key,
        match [A, B].filterMap (fun code => lookupPairs code m) with
        | [] => Json.null
        | d :: ds => Json.str (joinComma (d :: ds)))] := by
  have hv : pyStrip (pyStr (Json.str vs)) = vs := pyStrip_concat_caret hdata hsA hsB
  simp only [mapFieldPol]
  rw [if_neg (atEB_ne_MSG hd), if_pos hstart, hm]
  simp only [hv, containsCaret_concat hdata, pySplitCaret_concat hdata hA hB,
    List.filterMap_cons, List.filterMap_nil, hsA, hsB, if_pos, eq_self_iff_true, if_true]
  cases hla : lookupPairs A m with
  | some da =>
    cases hlb : lookupPairs B m with
    | some db => rfl
    | none => rfl
  | none =>
    cases hlb : lookupPairs B m with
    | some db => rfl
    | none => rfl

theorem mapFieldPol_lenient (lookup_cache : MappingTable) (acc : List (String × Json))
    (key : String) (value : Json) :
    mapFieldPol UnmappedPolicy.lenient lookup_cache acc key value =
      mapField lookup_cache acc key value := rfl

theorem resolve_lenient_eq (eb_entry : List (String × Json)) (lookup_cache : MappingTable) :
    resolve_eb_codes UnmappedPolicy.lenient eb_entry lookup_cache =
      map_eb_codes eb_entry lookup_cache := rfl

/-- Claim C10: a coded field (name starting with the marker plus the
coded-field tag) whose derived identifier has no entry in the MappingTable
keeps its original value object, with no stringification, trimming or
delimiter splitting; only the final normalization pass is applied to it,
stripping nested marker-prefixed keys. -/
theorem map_eb_codes_unmapped_field_passthrough :
    ∀ (key : String) (v : Json) (lookup_cache : MappingTable),
      startswith key "@EB" = true →
      lookupPairs (pyDrop1 key) lookup_cache = none →
      map_eb_codes [(key, v)] lookup_cache =
        Json.obj [(lstripAt key, remove_at_prefix v)] := by
  intro key v lookup_cache hstart hnone
  obtain ⟨r, hd⟩ := startswith_atEB hstart
  have hmf : mapField lookup_cache [] key v = [(lstripAt key, v)] := by
    simp only [mapField]
    rw [if_neg (atEB_ne_MSG hd), if_pos hstart, hnone]
    rfl
  rw [map_eb_codes, List.foldl_cons, List.foldl_nil, hmf, remove_singleton, lstripAt_idem]

/-- Witness for C10: an unmapped coded field with a numeric value and one
with a nested dictionary value pass through unstringified, the latter with
its nested marker key stripped. -/
theorem map_eb_codes_unmapped_field_passthrough_witness :
    map_eb_codes [("@EB99", Json.num 42)] scenarioTable =
      Json.obj [("EB99", Json.num 42)] ∧
    map_eb_codes [("@EB99", Json.obj [("@x", Json.num 7)])] scenarioTable =
      Json.obj [("EB99", Json.obj [("x", Json.num 7)])] :=
  ⟨map_eb_codes_unmapped_field_passthrough "@EB99" (Json.num 42) scenarioTable rfl rfl,
    map_eb_codes_unmapped_field_passthrough "@EB99" (Json.obj [("@x", Json.num 7)])
      scenarioTable rfl rfl⟩

/-- Claim C5: under the lenient policy (the behavior of `map_eb_codes` in
src/), a composite coded value "A^B" of a field with a table entry
resolves to "desc(A), desc(B)" when both parts resolve, and to
"desc(A), B" with B kept as its raw code when only A resolves; the spec's
scenario table and segment produce the spec's scenario output. -/
theorem map_eb_codes_lenient_composite :
    (∀ (key vs A B : String) (lookup_cache : MappingTable) (m : List (String × String))
        (da db : String),
      startswith key "@EB" = true →
      lookupPairs (pyDrop1 key) lookup_cache = some m →
      vs.data = A.data ++ '^' :: B.data →
      noCaret A = true → noCaret B = true →
      pyStrip A = A → pyStrip B = B →
      ((lookupPairs A m = some da → lookupPairs B m = some db →
          map_eb_codes [(key, Json.str vs)] lookup_cache =
            Json.obj [(lstripAt key, Json.str (da ++ ", " ++ db))]) ∧
        (lookupPairs A m = some da → lookupPairs B m = none →
          map_eb_codes [(key, Json.str vs)] lookup_cache =
            Json.obj [(lstripAt key, Json.str (da ++ ", " ++ B))]))) ∧
    map_eb_codes [("@EB03", Json.str "UC^86"), ("@EB01", Json.str "Y")] scenarioTable =
      Json.obj [("EB03", Json.str "UC, Co-Payment"), ("EB01", Json.str "Y")] := by
  constructor
  · intro key vs A B lookup_cache m da db hstart hm hdata hA hB hsA hsB
    obtain ⟨r, hd⟩ := startswith_atEB hstart
    have heval := mapField_composite_eval hd hstart hm hdata hA hB hsA hsB
    constructor
    · intro hla hlb
      rw [map_eb_codes, List.foldl_cons, List.foldl_nil, heval, remove_singleton,
        lstripAt_idem, remove_str, hla, hlb]
      simp [Option.getD]
    · intro hla hlb
      rw [map_eb_codes, List.foldl_cons, List.foldl_nil, heval, remove_singleton,
        lstripAt_idem, remove_str, hla, hlb]
      simp [Option.getD]
  · rfl

/-- Witness for C5: both composite cases at concrete codes of the
scenario table ("1^86" fully mapped, "86^UC" with raw fallback). -/
theorem map_eb_codes_lenient_composite_witness :
    map_eb_codes [("@EB03", Json.str "1^86")] scenarioTable =
      Json.obj [("EB03", Json.str "Active, Co-Payment")] ∧
    map_eb_codes [("@EB03", Json.str "86^UC")] scenarioTable =
      Json.obj [("EB03", Json.str "Co-Payment, UC")] :=
  ⟨(map_eb_codes_lenient_composite.1 "@EB03" "1^86" "1" "86" scenarioTable
      [("1", "Active"), ("86", "Co-Payment")] "Active" "Co-Payment"
      rfl rfl rfl rfl rfl rfl rfl).1 rfl rfl,
    (map_eb_codes_lenient_composite.1 "@EB03" "86^UC" "86" "UC" scenarioTable
      [("1", "Active"), ("86", "Co-Payment")] "Co-Payment" ""
      rfl rfl rfl rfl rfl rfl rfl).2 rfl rfl⟩

/-- Claim C2: the resolver's unmapped-code policy is a switchable mode;
the lenient mode coincides with `map_eb_codes` from src/, and under the
strict mode (modelled from the spec, see `mapFieldPol`) an unmapped field
and an unmapped single code resolve to null, a composite drops its
unmapped parts from the join, and a composite whose parts are all
unmapped resolves to null. -/
theorem resolve_eb_codes_strict_policy :
    (∀ (eb_entry : List (String × Json)) (lookup_cache : MappingTable),
      resolve_eb_codes UnmappedPolicy.lenient eb_entry lookup_cache =
        map_eb_codes eb_entry lookup_cache) ∧
    (∀ (key : String) (v : Json) (lookup_cache : MappingTable),
      startswith key "@EB" = true →
      lookupPairs (pyDrop1 key) lookup_cache = none →
      resolve_eb_codes UnmappedPolicy.strict [(key, v)] lookup_cache =
        Json.obj [(lstripAt key, Json.null)]) ∧
    (∀ (key c : String) (lookup_cache : MappingTable) (m : List (String × String)),
      startswith key "@EB" = true →
      lookupPairs (pyDrop1 key) lookup_cache = some m →
      noCaret c = true → pyStrip c = c →
      lookupPairs c m = none →
      resolve_eb_codes UnmappedPolicy.strict [(key, Json.str c)] lookup_cache =
        Json.obj [(lstripAt key, Json.null)]) ∧
    (∀ (key vs A B : String) (lookup_cache : MappingTable) (m : List (String × String))
        (da : String),
      startswith key "@EB" = true →
      lookupPairs (pyDrop1 key) lookup_cache = some m →
      vs.data = A.data ++ '^' :: B.data →
      noCaret A = true → noCaret B = true →
      pyStrip A = A → pyStrip B = B →
      ((lookupPairs A m = some da → lookupPairs B m = none →
          resolve_eb_codes UnmappedPolicy.strict [(key, Json.str vs)] lookup_cache =
            Json.obj [(lstripAt key, Json.str da)]) ∧
        (lookupPairs A m = none → lookupPairs B m = none →
          resolve_eb_codes UnmappedPolicy.strict [(key, Json.str vs)] lookup_cache =
            Json.obj [(lstripAt key, Json.null)]))) := by
  refine ⟨resolve_lenient_eq, ?_, ?_, ?_⟩
  · intro key v lookup_cache hstart hnone
    obtain ⟨r, hd⟩ := startswith_atEB hstart
    have hmf : mapFieldPol UnmappedPolicy.strict lookup_cache [] key v =
        [(lstripAt key, Json.null)] := by
      simp only [mapFieldPol]
      rw [if_neg (atEB_ne_MSG hd), if_pos hstart, hnone]
      rfl
    rw [resolve_eb_codes, List.foldl_cons, List.foldl_nil, hmf, remove_singleton, lstripAt_idem]
    rfl
  · intro key c lookup_cache m hstart hm hC hsC hlc
    obtain ⟨r, hd⟩ := startswith_atEB hstart
    have hv : pyStrip (pyStr (Json.str c)) = c := hsC
    have hcc : containsCaret c = false := by
      rw [noCaret] at hC
      simpa using hC
    have hmf : mapFieldPol UnmappedPolicy.strict lookup_cache [] key (Json.str c) =
        [(lstripAt key, Json.null)] := by
      simp only [mapFieldPol]
      rw [if_neg (atEB_ne_MSG hd), if_pos hstart, hm]
      simp [hv, hcc, hlc]
      rfl
    rw [resolve_eb_codes, List.foldl_cons, List.foldl_nil, hmf, remove_singleton, lstripAt_idem]
    rfl
  · intro key vs A B lookup_cache m da hstart hm hdata hA hB hsA hsB
    obtain ⟨r, hd⟩ := startswith_atEB hstart
    have heval := mapFieldPol_strict_composite_eval hd hstart hm hdata hA hB hsA hsB
    constructor
    · intro hla hlb
      rw [resolve_eb_codes, List.foldl_cons, List.foldl_nil, heval]
      simp only [List.filterMap_cons, List.filterMap_nil, hla, hlb]
      rw [remove_singleton, lstripAt_idem, remove_str]
      rfl
    · intro hla hlb
      rw [resolve_eb_codes, List.foldl_cons, List.foldl_nil, heval]
      simp only [List.filterMap_cons, List.filterMap_nil, hla, hlb]
      rw [remove_singleton, lstripAt_idem]
      rfl

/-- Witness for C2: the lenient/src coincidence and the three strict
behaviors at concrete inputs over the scenario table. -/
theorem resolve_eb_codes_strict_policy_witness :
    resolve_eb_codes UnmappedPolicy.lenient
        [("@EB03", Json.str "UC^86")] scenarioTable =
      map_eb_codes [("@EB03", Json.str "UC^86")] scenarioTable ∧
    resolve_eb_codes UnmappedPolicy.strict [("@EB99", Json.num 5)] scenarioTable =
      Json.obj [("EB99", Json.null)] ∧
    resolve_eb_codes UnmappedPolicy.strict [("@EB03", Json.str "UC")] scenarioTable =
      Json.obj [("EB03", Json.null)] ∧
    resolve_eb_codes UnmappedPolicy.strict [("@EB03", Json.str "86^UC")] scenarioTable =
      Json.obj [("EB03", Json.str "Co-Payment")] ∧
    resolve_eb_codes UnmappedPolicy.strict [("@EB03", Json.str "UC^XX")] scenarioTable =
      Json.obj [("EB03", Json.null)] :=
  ⟨resolve_eb_codes_strict_policy.1 [("@EB03", Json.str "UC^86")] scenarioTable,
    resolve_eb_codes_strict_policy.2.1 "@EB99" (Json.num 5) scenarioTable rfl rfl,
    resolve_eb_codes_strict_policy.2.2.1 "@EB03" "UC" scenarioTable
      [("1", "Active"), ("86", "Co-Payment")] rfl rfl rfl rfl rfl,
    (resolve_eb_codes_strict_policy.2.2.2 "@EB03" "86^UC" "86" "UC" scenarioTable
      [("1", "Active"), ("86", "Co-Payment")] "Co-Payment"
      rfl rfl rfl rfl rfl rfl rfl).1 rfl rfl,
    (resolve_eb_codes_strict_policy.2.2.2 "@EB03" "UC^XX" "UC" "XX" scenarioTable
      [("1", "Active"), ("86", "Co-Payment")] ""
      rfl rfl rfl rfl rfl rfl rfl).2 rfl rfl⟩

/-- Counterexample to C3 as stated: the code strips the whole leading
marker run (Python lstrip), not exactly one marker, and entries whose
stripped keys collide are merged by the dict comprehension, so the result
is not the structurally identical one-marker-stripped tree. -/
theorem remove_at_prefix_single_strip_cex :
    remove_at_prefix doubleAtDoc = Json.obj [("a", Json.bool true)] ∧
    stripOneTree doubleAtDoc = Json.obj [("@a", Json.null), ("a", Json.bool true)] ∧
    topKeys ( remove_at_prefix doubleAtDoc) ≠ topKeys (stripOneTree doubleAtDoc) :=
  ⟨rfl, rfl, by decide⟩

/-- Claim C3 (amended): on every tree in which no two keys of a mapping
collide after stripping, `remove_at_prefix` returns the structurally
identical tree in which every mapping key has its whole run of leading
'@' markers stripped (keys without the marker and scalar values are
unchanged), recursing into nested mapping values and sequence elements. -/
theorem remove_at_prefix_strips_all :
    ∀ t : Json, stripSafe t = true → remove_at_prefix t = stripAllTree t :=
  fun t h => remove_stripAll_aux (sizeOf t) t le_rfl h

/-- Witness for C3 (amended) at a concrete collision-free tree. -/
theorem remove_at_prefix_strips_all_witness :
    stripSafe (Json.obj [("@a", Json.null),
        ("b", Json.arr [Json.obj [("@c", Json.str "x")]])]) = true ∧
    remove_at_prefix (Json.obj [("@a", Json.null),
        ("b", Json.arr [Json.obj [("@c", Json.str "x")]])]) =
      stripAllTree (Json.obj [("@a", Json.null),
        ("b", Json.arr [Json.obj [("@c", Json.str "x")]])]) :=
  ⟨rfl, remove_at_prefix_strips_all
    (Json.obj [("@a", Json.null), ("b", Json.arr [Json.obj [("@c", Json.str "x")]])]) rfl⟩

/-- Claim C7: the Key Normalizer is idempotent: applying
`remove_at_prefix` twice yields the same tree as applying it once. -/
theorem remove_at_prefix_idempotent :
    ∀ t : Json, remove_at_prefix ( remove_at_prefix t) = remove_at_prefix t :=
  fun t => remove_idem_aux (sizeOf t) t le_rfl

/-- Claim C9: for every Segment, the mapping returned by the Segment
Resolver contains no marker-prefixed key at any nesting depth. -/
theorem map_eb_codes_no_marker_keys :
    ∀ (eb_entry : List (String × Json)) (lookup_cache : MappingTable),
      noAtKeys (map_eb_codes eb_entry lookup_cache) = true := by
  intro eb_entry lookup_cache
  rw [map_eb_codes]
  exact remove_noAtKeys_aux
    (sizeOf (Json.obj (eb_entry.foldl (fun acc p => mapField lookup_cache acc p.1 p.2) []))) _
    le_rfl

/-- Claim C4: `extract_patient_info` walks the fixed member-id chain and
returns null, never raising, whenever a link of the chain is absent from
its mapping; when the chain fully resolves it returns the member id found
at its end. -/
theorem extract_patient_info_absent_null :
    (∀ (data : Json) (ks₁ : List String) (k : String) (ks₂ : List String)
        (fs : List (String × Json)),
      memberPath = ks₁ ++ k :: ks₂ →
      tryPath data ks₁ = some (Json.obj fs) →
      lookupPairs k fs = none →
      extract_patient_info data = Except.ok none) ∧
    (∀ (data v : Json), tryPath data memberPath = some v →
      extract_patient_info data = Except.ok (some v)) := by
  constructor
  · intro data ks₁ k ks₂ fs hsplit h₁ h₂
    rw [extract_patient_info, hsplit, subscrChain_keyError h₁ h₂]
  · intro data v h
    rw [extract_patient_info, (subscrChain_ok_iff memberPath data v).mpr h]

/-- Witness for C4: a document missing the first chain link yields null;
a full document yields its member id. -/
theorem extract_patient_info_absent_null_witness :
    extract_patient_info (Json.obj []) = Except.ok none ∧
    extract_patient_info fullDoc = Except.ok (some (Json.str "MID123")) :=
  ⟨extract_patient_info_absent_null.1 (Json.obj []) [] "ISA"
      ["GS", "ST", "HL", "HL", "HL", "NM1", "@NM109"] [] rfl rfl rfl,
    extract_patient_info_absent_null.2 fullDoc (Json.str "MID123") rfl⟩

/-- Claim C6: `get_eb_list` tries the deeper HL4 path first and falls back
to the shallower HL3 path when any deep link is absent or the wrong shape;
it returns the deeper value when that path resolves, the shallower value
when only the shallower resolves, and null when neither resolves. -/
theorem get_eb_list_fallback :
    (∀ (data v : Json), tryPath data deepPath = some v → get_eb_list data = some v) ∧
    (∀ (data w : Json), tryPath data deepPath = none → tryPath data shallowPath = some w →
      get_eb_list data = some w) ∧
    (∀ data : Json, tryPath data deepPath = none → tryPath data shallowPath = none →
      get_eb_list data = none) := by
  refine ⟨?_, ?_, ?_⟩
  · intro data v h
    rw [get_eb_list, (subscrChain_ok_iff deepPath data v).mpr h]
  · intro data w h₁ h₂
    obtain ⟨e, he⟩ := subscrChain_error_of_none h₁
    rw [get_eb_list, he, (subscrChain_ok_iff shallowPath data w).mpr h₂]
  · intro data h₁ h₂
    obtain ⟨e₁, he₁⟩ := subscrChain_error_of_none h₁
    obtain ⟨e₂, he₂⟩ := subscrChain_error_of_none h₂
    rw [get_eb_list, he₁, he₂]

/-- Witness for C6: a deep-path document, a shallow-only document, and a
document matching neither path. -/
theorem get_eb_list_fallback_witness :
    get_eb_list gapDoc = some (Json.arr [Json.obj [("@EB01", Json.str "Y")],
      Json.str "skip", Json.obj [("@EB02", Json.str "Z")]]) ∧
    get_eb_list fullDoc = some (Json.arr [Json.obj [("@EB01", Json.str "Y")]]) ∧
    get_eb_list (Json.obj []) = none :=
  ⟨get_eb_list_fallback.1 gapDoc _ rfl,
    get_eb_list_fallback.2.1 fullDoc _ rfl rfl,
    get_eb_list_fallback.2.2 (Json.obj []) rfl rfl⟩

/-- Counterexample to C1 as stated: with a non-mapping element between two
mappings, the sequence ids are the 1-based source positions 1 and 3, not
the dense range 1..2. -/
theorem process_json_file_dense_ids_cex :
    (process_json_file gapDoc [] "T").map (fun r => r.id) = [1, 3] ∧
    (process_json_file gapDoc [] "T").map (fun r => r.id) ≠ [1, 2] :=
  ⟨rfl, by decide⟩

/-- Claim C1 (amended): for a document whose segment list is a non-empty
list, the batch has exactly one record per mapping-typed element, in
source order, and each record's sequence id is the 1-based position of
its element in the full list, so skipped non-mapping elements leave gaps
in the numbering. -/
theorem process_json_file_ids_positional :
    ∀ (data : Json) (lookup_cache : MappingTable) (timestamp : String)
      (mid : Option Json) (l : List Json),
      extract_patient_info data = Except.ok mid →
      get_eb_list data = some (Json.arr l) →
      pyTruthy (Json.arr l) = true →
      process_json_file data lookup_cache timestamp =
          assembleBatch lookup_cache mid timestamp l ∧
        (process_json_file data lookup_cache timestamp).length = l.countP isObjB := by
  intro data lookup_cache timestamp mid l hex heb htr
  have hp : process_json_file data lookup_cache timestamp =
      processEntries lookup_cache mid timestamp 1 l := by
    rw [process_json_file, hex, heb]
    show (if pyTruthy (Json.arr l) = true then
        processEntries lookup_cache mid timestamp 1 l else []) =
      processEntries lookup_cache mid timestamp 1 l
    rw [if_pos htr]
  constructor
  · rw [hp, processEntries_eq]
    rfl
  · rw [hp, processEntries_length]

/-- Witness for C1 (amended) at the three-element list with a skipped
middle element. -/
theorem process_json_file_ids_positional_witness :
    process_json_file gapDoc [] "T" =
        assembleBatch [] none "T" [Json.obj [("@EB01", Json.str "Y")],
          Json.str "skip", Json.obj [("@EB02", Json.str "Z")]] ∧
      (process_json_file gapDoc [] "T").length =
        [Json.obj [("@EB01", Json.str "Y")], Json.str "skip",
          Json.obj [("@EB02", Json.str "Z")]].countP isObjB :=
  process_json_file_ids_positional gapDoc [] "T" none
    [Json.obj [("@EB01", Json.str "Y")], Json.str "skip",
      Json.obj [("@EB02", Json.str "Z")]] rfl rfl rfl

/-- Counterexample to C8 as stated: a segment list resolving to an empty
mapping is falsy, so the batch is empty rather than a one-element batch. -/
theorem process_json_file_empty_obj_cex :
    get_eb_list emptyObjDoc = some (Json.obj []) ∧
    process_json_file emptyObjDoc [] "T" = [] :=
  ⟨rfl, rfl⟩

/-- Claim C8 (amended): a document whose segment list resolves to a single
non-empty mapping is treated as a one-element list and produces a
one-element batch whose record has sequence id 1. -/
theorem process_json_file_singleton_obj :
    ∀ (data : Json) (lookup_cache : MappingTable) (timestamp : String)
      (mid : Option Json) (fs : List (String × Json)),
      extract_patient_info data = Except.ok mid →
      get_eb_list data = some (Json.obj fs) →
      pyTruthy (Json.obj fs) = true →
      process_json_file data lookup_cache timestamp =
        [⟨1, mid, timestamp, map_eb_codes fs lookup_cache⟩] := by
  intro data lookup_cache timestamp mid fs hex heb htr
  rw [process_json_file, hex, heb]
  show (if pyTruthy (Json.obj fs) = true then
      processEntries lookup_cache mid timestamp 1 [Json.obj fs] else []) =
    [⟨1, mid, timestamp, map_eb_codes fs lookup_cache⟩]
  rw [if_pos htr]
  rfl

/-- Witness for C8 (amended) at a document with a single non-empty
mapping as its segment list. -/
theorem process_json_file_singleton_obj_witness :
    process_json_file singleObjDoc [] "T" =
      [⟨1, none, "T", map_eb_codes [("@EB01", Json.str "Y")] []⟩] :=
  process_json_file_singleton_obj singleObjDoc [] "T" none
    [("@EB01", Json.str "Y")] rfl rfl rfl
